import Mathlib

/-!
# Verification of `percache.py` — a persistent memoization cache

Shallow embedding of `percache.py`.  Strings from the Python side are
modelled as `List Char` (`Key`), byte strings as `List Nat` (each entry a
byte value).  The `shelve` store is modelled as an association list with
overwrite semantics; `time.time()` values are modelled as rationals
(`ℚ`), passed explicitly to each operation that reads the clock.

The SHA-1 function used for key derivation (`hashlib.sha1` /
`.update` / `.hexdigest`) is embedded concretely: 32-bit words are `Nat`
reduced mod `2 ^ 32`, and `hexdigest` renders five words as 40 lowercase
hexadecimal characters.
-/

/-- Reduce a natural number to a 32-bit word (`% 2^32`). -/
def w32 (n : Nat) : Nat := n % 4294967296

/-- Left-rotation of a 32-bit word by `b` bits (input assumed `< 2^32`). -/
def rotl (b n : Nat) : Nat := w32 ((n <<< b) ||| (n >>> (32 - b)))

/-- Big-endian byte rendering of `n` on `j` bytes. -/
def beBytes : Nat → Nat → List Nat
  | 0, _ => []
  | j + 1, n => beBytes j (n / 256) ++ [n % 256]

/-- SHA-1 message padding: append `0x80`, zeros, and the 64-bit bit-length,
reaching a multiple of 64 bytes. -/
def padMsg (ms : List Nat) : List Nat :=
  let len := ms.length
  let k := (120 - ((len + 1) % 64)) % 64
  ms ++ [128] ++ List.replicate k 0 ++ beBytes 8 (8 * len)

/-- Split a byte list into 64-byte chunks (fuel-based structural recursion;
`fuel ≥ length` always suffices since each step strictly shortens the list). -/
def chunks64Go : Nat → List Nat → List (List Nat)
  | 0, _ => []
  | _, [] => []
  | fuel + 1, x :: xs => (x :: xs).take 64 :: chunks64Go fuel ((x :: xs).drop 64)

/-- Split a byte list into 64-byte chunks. -/
def chunks64 (l : List Nat) : List (List Nat) := chunks64Go l.length l

/-- Group bytes into big-endian 32-bit words. -/
def beWords : List Nat → List Nat
  | b0 :: b1 :: b2 :: b3 :: rest =>
      (((b0 * 256 + b1) * 256 + b2) * 256 + b3) :: beWords rest
  | _ => []

/-- Extend the 16 message words of a block to the 80 schedule words. -/
def extendWords (ws : List Nat) : List Nat :=
  (List.range 64).foldl
    (fun acc _ =>
      let n := acc.length
      acc ++ [rotl 1 ((((acc.getD (n - 3) 0) ^^^ (acc.getD (n - 8) 0)) ^^^
        (acc.getD (n - 14) 0)) ^^^ (acc.getD (n - 16) 0))])
    ws

/-- One SHA-1 round: state `(a,b,c,d,e)`, round index `i`, schedule word `wi`. -/
def sha1Round (i : Nat) (st : Nat × Nat × Nat × Nat × Nat) (wi : Nat) :
    Nat × Nat × Nat × Nat × Nat :=
  let (a, b, c, d, e) := st
  let f :=
    if i < 20 then (b &&& c) ||| ((b ^^^ 4294967295) &&& d)
    else if i < 40 then (b ^^^ c) ^^^ d
    else if i < 60 then ((b &&& c) ||| (b &&& d)) ||| (c &&& d)
    else (b ^^^ c) ^^^ d
  let k :=
    if i < 20 then 1518500249
    else if i < 40 then 1859775393
    else if i < 60 then 2400959708
    else 3395469782
  (w32 (rotl 5 a + f + e + k + wi), a, rotl 30 b, c, d)

/-- Process one 64-byte block, updating the five-word state. -/
def processBlock (h : Nat × Nat × Nat × Nat × Nat) (block : List Nat) :
    Nat × Nat × Nat × Nat × Nat :=
  let ws := extendWords (beWords block)
  let st := ((List.range 80).zip ws).foldl (fun st p => sha1Round p.1 st p.2) h
  (w32 (h.1 + st.1), w32 (h.2.1 + st.2.1), w32 (h.2.2.1 + st.2.2.1),
   w32 (h.2.2.2.1 + st.2.2.2.1), w32 (h.2.2.2.2 + st.2.2.2.2))

/-- SHA-1 digest of a byte string, as five 32-bit words. -/
def sha1Digest (msg : List Nat) : Nat × Nat × Nat × Nat × Nat :=
  (chunks64 (padMsg msg)).foldl processBlock
    (1732584193, 4023233417, 2562383102, 271733878, 3285377520)

/-- Lowercase hexadecimal digit for `n < 16`. -/
def hexChar (n : Nat) : Char :=
  if n < 10 then Char.ofNat (48 + n) else Char.ofNat (87 + n)

/-- Render a 32-bit word as exactly 8 hexadecimal characters. -/
def hexPad8 (n : Nat) : List Char :=
  (List.range 8).map (fun i => hexChar ((n >>> (4 * (7 - i))) % 16))

/-- `hexdigest()`: the SHA-1 digest as 40 lowercase hexadecimal characters. -/
def sha1hex (msg : List Nat) : List Char :=
  let h := sha1Digest msg
  hexPad8 h.1 ++ hexPad8 h.2.1 ++ hexPad8 h.2.2.1 ++
    hexPad8 h.2.2.2.1 ++ hexPad8 h.2.2.2.2

/-! ## Python strings -/

/-- Python strings are modelled as lists of characters. -/
abbrev Key := List Char

/-- Bytes of a (byte) string: each character is one byte. -/
def strBytes (s : Key) : List Nat := s.map Char.toNat

/-- The literal `":atime"` appended to a cache key for its timestamp entry. -/
def atimeSuffix : Key := [':', 'a', 't', 'i', 'm', 'e']

/-- Python `s.endswith(t)`. -/
def pyEndsWith (s t : Key) : Bool := t.isSuffixOf s

/-- Python `s.rsplit(sep, 1)[0]`: everything before the last occurrence of
`sep` (the whole string when `sep` does not occur). -/
def rsplitBefore (sep : Char) (s : Key) : Key :=
  let r := s.reverse
  let tail := r.takeWhile (fun c => c ≠ sep)
  if tail.length = r.length then s else (r.drop (tail.length + 1)).reverse

/-- A character is a lowercase hexadecimal digit. -/
def isHexDigit (c : Char) : Bool := ('0' ≤ c ∧ c ≤ '9') ∨ ('a' ≤ c ∧ c ≤ 'f')

/-- A well-formed value key: a 40-character hexadecimal SHA-1 digest. -/
def isDigestKey (k : Key) : Bool := k.length = 40 ∧ k.all isHexDigit

/-! ## The store (`shelve` dictionary) -/

/-- A stored object: either a cached result or an access-time float. -/
inductive SVal (α : Type) where
  | res (v : α)
  | time (t : ℚ)
  deriving DecidableEq, Repr

/-- The shelve store: a flat string-keyed dictionary. -/
abbrev Store (α : Type) := List (Key × SVal α)

/-- Dictionary lookup (`cache[key]` / `key in cache`). -/
def sget {α : Type} (c : Store α) (k : Key) : Option (SVal α) :=
  match c with
  | [] => none
  | p :: rest => if p.1 = k then some p.2 else sget rest k

/-- Dictionary membership test (`key in cache`). -/
def scontains {α : Type} (c : Store α) (k : Key) : Bool := (sget c k).isSome

/-- Dictionary insert/overwrite (`cache[key] = v`). -/
def sset {α : Type} (c : Store α) (k : Key) (v : SVal α) : Store α :=
  (k, v) :: c.filter (fun p => p.1 ≠ k)

/-- Dictionary deletion (`del cache[key]`). -/
def sdel {α : Type} (c : Store α) (k : Key) : Store α :=
  c.filter (fun p => p.1 ≠ k)

/-- The keys of the store, in iteration order. -/
def skeys {α : Type} (c : Store α) : List Key := c.map Prod.fst

/-! ## Key derivation (`wrapper`, lines 41–46) -/

/-- `sorted(kwargs)` followed by indexing: the keyword pairs sorted by name
(names are the keys of a dict, hence pairwise distinct). -/
def sortKwargs {α : Type} (kwargs : List (Key × α)) : List (Key × α) :=
  List.insertionSort (fun p q => p.1 ≤ q.1) kwargs

/-- The bytes fed to the SHA-1 object: the callable name, each positional
argument's representation in order, then `"name:representation"` for each
keyword argument in sorted name order. -/
def keyBytes {α : Type} (rep : α → Key) (name : Key) (args : List α)
    (kwargs : List (Key × α)) : List Nat :=
  strBytes name ++
    args.flatMap (fun a => strBytes (rep a)) ++
    (sortKwargs kwargs).flatMap (fun p => strBytes (p.1 ++ ':' :: rep p.2))

/-- `ckey`: the hexadecimal SHA-1 digest identifying a call. -/
def computeKey {α : Type} (rep : α → Key) (name : Key) (args : List α)
    (kwargs : List (Key × α)) : Key :=
  sha1hex (keyBytes rep name args kwargs)

/-! ## The wrapped call (`wrapper`, lines 48–54) -/

/-- One invocation of the wrapped callable.  The callable `fn` either
returns a result or raises (`Except.error`).  Returns the outcome (the
stored object on a hit, the fresh result on a miss, or the propagated
exception), the resulting store, and the number of times `fn` was invoked
during the call. -/
def wrapper {α ε : Type} (rep : α → Key) (name : Key)
    (fn : List α → List (Key × α) → Except ε α) (now : ℚ)
    (args : List α) (kwargs : List (Key × α)) (cache : Store α) :
    Except ε (SVal α) × Store α × Nat :=
  let ckey := computeKey rep name args kwargs
  match sget cache ckey with
  | some r => (Except.ok r, sset cache (ckey ++ atimeSuffix) (SVal.time now), 0)
  | none =>
    match fn args kwargs with
    | Except.error e => (Except.error e, cache, 1)
    | Except.ok r =>
        (Except.ok (SVal.res r),
         sset (sset cache ckey (SVal.res r)) (ckey ++ atimeSuffix) (SVal.time now), 1)

/-! ## Eviction (`clear`, lines 63–77) and statistics (`_stats`, lines 79–94) -/

/-- `self.__cache[key] < bigbang` for a timestamp entry.  In every state
reachable through the public operations a key ending in `":atime"` holds a
float, so the comparison is a float comparison; a non-float is never
compared here. -/
def atimeLt {α : Type} (v : Option (SVal α)) (b : ℚ) : Bool :=
  match v with
  | some (SVal.time t) => decide (t < b)
  | _ => false

/-- The float held by a timestamp entry (same remark as `atimeLt`). -/
def timeVal {α : Type} (v : Option (SVal α)) : ℚ :=
  match v with
  | some (SVal.time t) => t
  | _ => 0

/-- The `outdated` list built by `clear`: for every key ending in
`":atime"` whose timestamp is older than `bigbang`, the key itself and the
key with the `":atime"` part split off. -/
def outdatedKeys {α : Type} (bigbang : ℚ) (c : Store α) : List Key :=
  (skeys c).flatMap
    (fun key =>
      if pyEndsWith key atimeSuffix ∧ atimeLt (sget c key) bigbang then
        [key, rsplitBefore ':' key]
      else [])

/-- `clear(maxage)`: with a positive `maxage`, collect every timestamp key
older than `now - maxage` together with its value key and delete them all;
otherwise empty the whole store. -/
def clear {α : Type} (now maxage : ℚ) (c : Store α) : Store α :=
  if 0 < maxage then (outdatedKeys (now - maxage) c).foldl sdel c
  else []

/-- `_stats()`: count of timestamp entries, oldest and newest access time
(`oldest` starts at the current clock reading, `newest` at `0`). -/
def _stats {α : Type} (statsNow : ℚ) (c : Store α) : Nat × ℚ × ℚ :=
  (skeys c).foldl
    (fun acc key =>
      if pyEndsWith key atimeSuffix then
        (acc.1 + 1, min acc.2.1 (timeVal (sget c key)),
         max acc.2.2 (timeVal (sget c key)))
      else acc)
    (0, statsNow, 0)

/-! ## Command line output (`_main`, lines 100–123) -/

/-- `"%d"` applied to an integral value. -/
def pyFmtInt (i : Int) : Key := (toString i).data

/-- Python float floor-division `//` (by a positive number): the floor of
the quotient, computed as floor division of numerator by denominator. -/
def qfloor (q : ℚ) : Int := Int.fdiv q.num q.den

/-- Python `int()` (and `"%d"`) on a float: truncation toward zero. -/
def truncQ (q : ℚ) : Int := Int.tdiv q.num q.den

/-- `age(s)`: pretty-print a duration in seconds using the first matching
unit among days/hours/minutes (when its value exceeds 1) or seconds. -/
def age (s : ℚ) : Key :=
  let m := qfloor (s / 60)
  let h := qfloor (s / 3600)
  let d := qfloor (s / 86400)
  if 1 < d then pyFmtInt d ++ ['d']
  else if 1 < h then pyFmtInt h ++ ['h']
  else if 1 < m then pyFmtInt m ++ ['m']
  else pyFmtInt (truncQ s) ++ ['s']

/-- The three lines `_main` prints for an existing cache file.  `now` is the
clock reading at line 119 and `statsNow` the one taken inside `_stats`.
Line 123 of the source prints `age(now - oldest)` on the "Latest" line,
reusing `oldest` rather than `newest`. -/
def mainOutput {α : Type} (now statsNow : ℚ) (c : Store α) : List Key :=
  let s := _stats statsNow c
  [ "Number of cached results : ".data ++ (toString s.1).data,
    "Oldest result usage age  : ".data ++ age (now - s.2.1),
    "Latest result usage age  : ".data ++ age (now - s.2.1) ]

/-! ## Well-formed stores and reachability -/

/-- Every binding is either a digest key holding a result or a digest key
with the `":atime"` suffix holding a time. -/
def wfShape {α : Type} (c : Store α) : Prop :=
  ∀ p ∈ c, (isDigestKey p.1 = true ∧ ∃ v, p.2 = SVal.res v) ∨
    (∃ d, isDigestKey d = true ∧ p.1 = d ++ atimeSuffix ∧ ∃ t, p.2 = SVal.time t)

/-- The pairing invariant: a digest key is present exactly when its
timestamp key is present. -/
def wfPairing {α : Type} (c : Store α) : Prop :=
  ∀ d : Key, isDigestKey d = true →
    (scontains c d = true ↔ scontains c (d ++ atimeSuffix) = true)

/-- Well-formedness: distinct keys, shaped bindings, and pairing. -/
def wfStore {α : Type} (c : Store α) : Prop :=
  (skeys c).Nodup ∧ wfShape c ∧ wfPairing c

/-- Store states reachable from the empty cache through the public
operations (a wrapped call — successful or raising — and `clear` with any
threshold; `_stats` reads the store without changing it). -/
inductive Reachable {α : Type} : Store α → Prop where
  | empty : Reachable []
  | call {ε : Type} (rep : α → Key) (name : Key)
      (fn : List α → List (Key × α) → Except ε α) (now : ℚ)
      (args : List α) (kwargs : List (Key × α)) {c : Store α} :
      Reachable c → Reachable (wrapper rep name fn now args kwargs c).2.1
  | evict (now maxage : ℚ) {c : Store α} :
      Reachable c → Reachable (clear now maxage c)

/-- A concrete four-entry store (two results with access times 0 and 100)
used to exhibit the command-line statistics output. -/
def demoStore : Store Unit :=
  [(List.replicate 40 'a', SVal.res ()),
   (List.replicate 40 'a' ++ atimeSuffix, SVal.time 0),
   (List.replicate 40 'b', SVal.res ()),
   (List.replicate 40 'b' ++ atimeSuffix, SVal.time 100)]

/-- Sorting keyword pairs by name is total. -/
instance kwLeTotal {α : Type} : IsTotal (Key × α) (fun p q => p.1 ≤ q.1) :=
  ⟨fun a b => le_total a.1 b.1⟩

/-- Sorting keyword pairs by name is transitive. -/
instance kwLeTrans {α : Type} : IsTrans (Key × α) (fun p q => p.1 ≤ q.1) :=
  ⟨fun _ _ _ h1 h2 => le_trans h1 h2⟩

/-- Strict name order on keyword pairs is (vacuously) antisymmetric. -/
instance kwLtAntisymm {α : Type} : IsAntisymm (Key × α) (fun p q => p.1 < q.1) :=
  ⟨fun _ _ h1 h2 => absurd h2 (lt_asymm h1)⟩

/-! ## Store lemmas -/

theorem sget_nil {α : Type} (k : Key) : sget ([] : Store α) k = none := rfl

theorem sget_cons {α : Type} (p : Key × SVal α) (rest : Store α) (k : Key) :
    sget (p :: rest) k = if p.1 = k then some p.2 else sget rest k := rfl

theorem skeys_cons {α : Type} (p : Key × SVal α) (rest : Store α) :
    skeys (p :: rest) = p.1 :: skeys rest := rfl

theorem sget_filter_key {α : Type} (f : Key → Bool) (c : Store α) (k : Key) :
    sget (c.filter (fun p => f p.1)) k = if f k then sget c k else none := by
  induction c with
  | nil => simp [sget]
  | cons p rest ih =>
      by_cases hf : f p.1
      · by_cases hk : p.1 = k
        · subst hk; simp [List.filter_cons, hf, sget]
        · simp [List.filter_cons, hf, sget, hk, ih]
      · by_cases hk : p.1 = k
        · subst hk; simp [List.filter_cons, hf, sget, ih]
        · simp [List.filter_cons, hf, sget, hk, ih]

theorem sget_sset_self {α : Type} (c : Store α) (k : Key) (v : SVal α) :
    sget (sset c k v) k = some v := by
  simp [sset, sget]

theorem sget_sset_ne {α : Type} (c : Store α) (k k' : Key) (v : SVal α)
    (h : k' ≠ k) : sget (sset c k v) k' = sget c k' := by
  have := sget_filter_key (fun x => decide (x ≠ k)) c k'
  simp [sset, sget, Ne.symm h, h] at this ⊢
  simpa [h] using this

theorem sget_sdel {α : Type} (c : Store α) (k k' : Key) :
    sget (sdel c k) k' = if k' = k then none else sget c k' := by
  have := sget_filter_key (fun x => decide (x ≠ k)) c k'
  by_cases h : k' = k <;> simp [sdel, h] at this ⊢ <;> simpa using this

theorem sget_eq_some_mem {α : Type} {c : Store α} {k : Key} {v : SVal α}
    (h : sget c k = some v) : (k, v) ∈ c := by
  induction c with
  | nil => simp [sget] at h
  | cons p rest ih =>
      by_cases hk : p.1 = k
      · rw [sget_cons, if_pos hk] at h
        have hp : p = (k, v) := by
          cases p
          simp at hk h
          simp [hk, h]
        rw [hp]
        exact List.mem_cons_self _ _
      · rw [sget_cons, if_neg hk] at h
        exact List.mem_cons_of_mem _ (ih h)

theorem scontains_iff_mem {α : Type} {c : Store α} {k : Key} :
    scontains c k = true ↔ k ∈ skeys c := by
  induction c with
  | nil => simp [scontains, sget, skeys]
  | cons p rest ih =>
      rw [skeys_cons, List.mem_cons]
      by_cases hk : p.1 = k
      · simp [scontains, sget_cons, hk]
      · rw [show scontains (p :: rest) k = scontains rest k by
              simp [scontains, sget_cons, hk]]
        rw [ih]
        constructor
        · exact Or.inr
        · rintro (h | h)
          · exact absurd h.symm hk
          · exact h

theorem scontains_of_sget {α : Type} {c : Store α} {k : Key} {v : SVal α}
    (h : sget c k = some v) : scontains c k = true := by
  simp [scontains, h]

theorem mem_sset {α : Type} {c : Store α} {k : Key} {v : SVal α} {p : Key × SVal α}
    (h : p ∈ sset c k v) : p = (k, v) ∨ p ∈ c := by
  rcases List.mem_cons.mp h with h | h
  · exact Or.inl h
  · exact Or.inr (List.mem_filter.mp h).1

theorem skeys_sset {α : Type} (c : Store α) (k : Key) (v : SVal α) :
    skeys (sset c k v) = k :: (c.filter (fun p => p.1 ≠ k)).map Prod.fst := rfl

theorem nodup_skeys_sset {α : Type} {c : Store α} (k : Key) (v : SVal α)
    (h : (skeys c).Nodup) : (skeys (sset c k v)).Nodup := by
  rw [skeys_sset]
  refine List.Nodup.cons ?_ ?_
  · intro hmem
    rcases List.mem_map.mp hmem with ⟨p, hp, hpk⟩
    have := (List.mem_filter.mp hp).2
    simp [hpk] at this
  · exact List.Nodup.sublist (List.Sublist.map _ (List.filter_sublist c)) h

theorem scontains_sset {α : Type} (c : Store α) (k k' : Key) (v : SVal α) :
    scontains (sset c k v) k' = true ↔ k' = k ∨ scontains c k' = true := by
  by_cases h : k' = k
  · subst h; simp [scontains, sget_sset_self]
  · simp [scontains, sget_sset_ne c k k' v h, h]

theorem foldl_sdel_eq_filter {α : Type} (ks : List Key) (c : Store α) :
    ks.foldl sdel c = c.filter (fun p => decide (p.1 ∉ ks)) := by
  induction ks generalizing c with
  | nil => simp
  | cons k ks ih =>
      have : List.foldl sdel c (k :: ks) = List.foldl sdel (sdel c k) ks := rfl
      rw [this, ih, sdel, List.filter_filter]
      apply List.filter_congr
      intro p _
      by_cases h1 : p.1 = k <;> by_cases h2 : p.1 ∈ ks <;> simp [h1, h2]

theorem sget_foldl_sdel {α : Type} (ks : List Key) (c : Store α) (k : Key) :
    sget (ks.foldl sdel c) k = if k ∈ ks then none else sget c k := by
  rw [foldl_sdel_eq_filter]
  have := sget_filter_key (fun x => decide (x ∉ ks)) c k
  by_cases h : k ∈ ks <;> simp [h] at this ⊢ <;> simpa using this

/-! ## Digest shape lemmas -/

theorem length_hexPad8 (n : Nat) : (hexPad8 n).length = 8 := by
  simp [hexPad8]

theorem length_sha1hex (m : List Nat) : (sha1hex m).length = 40 := by
  simp [sha1hex, length_hexPad8]

theorem isHexDigit_hexChar_mod (x : Nat) : isHexDigit (hexChar (x % 16)) = true := by
  have h : x % 16 < 16 := Nat.mod_lt _ (by omega)
  revert h
  have : ∀ y, y < 16 → isHexDigit (hexChar y) = true := by decide
  exact this (x % 16)

theorem mem_hexPad8_hex {n : Nat} {c : Char} (h : c ∈ hexPad8 n) :
    isHexDigit c = true := by
  rcases List.mem_map.mp h with ⟨i, _, hi⟩
  rw [← hi]
  exact isHexDigit_hexChar_mod _

theorem mem_sha1hex_hex {m : List Nat} {c : Char} (h : c ∈ sha1hex m) :
    isHexDigit c = true := by
  simp only [sha1hex, List.mem_append] at h
  rcases h with ((((h | h) | h) | h) | h) <;> exact mem_hexPad8_hex h

theorem isDigestKey_sha1hex (m : List Nat) : isDigestKey (sha1hex m) = true := by
  simp only [isDigestKey, length_sha1hex, Bool.decide_and, Bool.and_eq_true,
    decide_eq_true_eq, List.all_eq_true]
  constructor
  · simp [length_sha1hex]
  · exact fun c hc => mem_sha1hex_hex hc

theorem isDigestKey_computeKey {α : Type} (rep : α → Key) (name : Key)
    (args : List α) (kwargs : List (Key × α)) :
    isDigestKey (computeKey rep name args kwargs) = true :=
  isDigestKey_sha1hex _

theorem length_of_isDigestKey {k : Key} (h : isDigestKey k = true) :
    k.length = 40 := by
  simp only [isDigestKey, Bool.decide_and, Bool.and_eq_true, decide_eq_true_eq] at h
  exact h.1

theorem hex_of_isDigestKey {k : Key} (h : isDigestKey k = true) {c : Char}
    (hc : c ∈ k) : isHexDigit c = true := by
  simp only [isDigestKey, Bool.decide_and, Bool.and_eq_true, decide_eq_true_eq,
    List.all_eq_true] at h
  exact h.2 c hc

theorem digest_not_atime {k : Key} (h : isDigestKey k = true) :
    pyEndsWith k atimeSuffix = false := by
  by_contra hne
  rw [Bool.not_eq_false] at hne
  have hsuf : atimeSuffix <:+ k := List.isSuffixOf_iff_suffix.mp hne
  rcases hsuf with ⟨t, ht⟩
  have hcolon : (':' : Char) ∈ k := by
    rw [← ht]
    exact List.mem_append.mpr (Or.inr (by simp [atimeSuffix]))
  have := hex_of_isDigestKey h hcolon
  simp [isHexDigit] at this

theorem atimeKey_ends_atime (k : Key) :
    pyEndsWith (k ++ atimeSuffix) atimeSuffix = true :=
  List.isSuffixOf_iff_suffix.mpr (List.suffix_append k atimeSuffix)

theorem rsplit_atimeKey (d : Key) :
    rsplitBefore ':' (d ++ atimeSuffix) = d := by
  have hrev : (d ++ atimeSuffix).reverse =
      'e' :: 'm' :: 'i' :: 't' :: 'a' :: ':' :: d.reverse := by
    simp [atimeSuffix, List.reverse_append]
  have htake : ((d ++ atimeSuffix).reverse.takeWhile (fun c => c ≠ ':')) =
      ['e', 'm', 'i', 't', 'a'] := by
    rw [hrev]
    simp [List.takeWhile_cons]
  have hlen : (d ++ atimeSuffix).reverse.length = d.length + 6 := by
    simp [atimeSuffix]
  rw [rsplitBefore]
  simp only [htake, hlen]
  rw [if_neg (by simp)]
  rw [hrev]
  simp

theorem key_ne_atimeKey (k : Key) : k ≠ k ++ atimeSuffix := by
  intro h
  have := congrArg List.length h
  simp [atimeSuffix] at this

theorem atimeKey_inj {d d' : Key} (h : d ++ atimeSuffix = d' ++ atimeSuffix) :
    d = d' := (List.append_left_inj _).mp h

theorem digest_ne_atimeKey {d : Key} (hd : isDigestKey d = true) (x : Key) :
    d ≠ x ++ atimeSuffix := by
  intro h
  have := digest_not_atime hd
  rw [h, atimeKey_ends_atime] at this
  simp at this

theorem atimeKey_ne_digest {d x : Key} (hd : isDigestKey d = true) :
    x ++ atimeSuffix ≠ d := fun h => digest_ne_atimeKey hd x h.symm

/-! ## Keyword-argument sorting -/

theorem sortKwargs_perm {α : Type} (l : List (Key × α)) :
    (sortKwargs l).Perm l :=
  List.perm_insertionSort _ l

theorem sortKwargs_sorted_strict {α : Type} {l : List (Key × α)}
    (hnd : (l.map Prod.fst).Nodup) :
    List.Sorted (fun p q : Key × α => p.1 < q.1) (sortKwargs l) := by
  have hs : List.Sorted (fun p q : Key × α => p.1 ≤ q.1) (sortKwargs l) :=
    List.sorted_insertionSort _ l
  have hnd' : ((sortKwargs l).map Prod.fst).Nodup :=
    (((sortKwargs_perm l).map Prod.fst).nodup_iff).mpr hnd
  have hne : List.Pairwise (fun p q : Key × α => p.1 ≠ q.1) (sortKwargs l) :=
    List.pairwise_map.mp hnd'
  exact List.Pairwise.imp (fun h => lt_of_le_of_ne h.1 h.2) (hs.and hne)

/-- Sorting the keyword pairs of a dict (distinct names) is insensitive to
their insertion order. -/
theorem sortKwargs_eq_of_perm {α : Type} {l₁ l₂ : List (Key × α)}
    (hp : l₁.Perm l₂) (hnd : (l₁.map Prod.fst).Nodup) :
    sortKwargs l₁ = sortKwargs l₂ := by
  have hperm : (sortKwargs l₁).Perm (sortKwargs l₂) :=
    (sortKwargs_perm l₁).trans (hp.trans (sortKwargs_perm l₂).symm)
  have hnd₂ : (l₂.map Prod.fst).Nodup := ((hp.map Prod.fst).nodup_iff).mp hnd
  exact List.eq_of_perm_of_sorted hperm (sortKwargs_sorted_strict hnd)
    (sortKwargs_sorted_strict hnd₂)

/-! ## Wrapper branch equations -/

theorem wrapper_hit {α ε : Type} (rep : α → Key) (name : Key)
    (fn : List α → List (Key × α) → Except ε α) (now : ℚ) (args : List α)
    (kwargs : List (Key × α)) (cache : Store α) {sv : SVal α}
    (h : sget cache (computeKey rep name args kwargs) = some sv) :
    wrapper rep name fn now args kwargs cache =
      (Except.ok sv,
       sset cache (computeKey rep name args kwargs ++ atimeSuffix) (SVal.time now),
       0) := by
  simp [wrapper, h]

theorem wrapper_miss_ok {α ε : Type} (rep : α → Key) (name : Key)
    (fn : List α → List (Key × α) → Except ε α) (now : ℚ) (args : List α)
    (kwargs : List (Key × α)) (cache : Store α) {r : α}
    (hm : sget cache (computeKey rep name args kwargs) = none)
    (hf : fn args kwargs = Except.ok r) :
    wrapper rep name fn now args kwargs cache =
      (Except.ok (SVal.res r),
       sset (sset cache (computeKey rep name args kwargs) (SVal.res r))
         (computeKey rep name args kwargs ++ atimeSuffix) (SVal.time now),
       1) := by
  simp [wrapper, hm, hf]

theorem wrapper_miss_err {α ε : Type} (rep : α → Key) (name : Key)
    (fn : List α → List (Key × α) → Except ε α) (now : ℚ) (args : List α)
    (kwargs : List (Key × α)) (cache : Store α) {e : ε}
    (hm : sget cache (computeKey rep name args kwargs) = none)
    (hf : fn args kwargs = Except.error e) :
    wrapper rep name fn now args kwargs cache = (Except.error e, cache, 1) := by
  simp [wrapper, hm, hf]

/-- After a successful miss, the fresh result sits in the store under the
computed key. -/
theorem sget_after_miss {α ε : Type} (rep : α → Key) (name : Key)
    (fn : List α → List (Key × α) → Except ε α) (now : ℚ) (args : List α)
    (kwargs : List (Key × α)) (cache : Store α) {r : α}
    (hm : sget cache (computeKey rep name args kwargs) = none)
    (hf : fn args kwargs = Except.ok r) :
    sget (wrapper rep name fn now args kwargs cache).2.1
      (computeKey rep name args kwargs) = some (SVal.res r) := by
  rw [wrapper_miss_ok rep name fn now args kwargs cache hm hf]
  rw [show ((Except.ok (SVal.res r) : Except ε (SVal α)),
      sset (sset cache (computeKey rep name args kwargs) (SVal.res r))
        (computeKey rep name args kwargs ++ atimeSuffix) (SVal.time now),
      (1 : Nat)).2.1 =
      sset (sset cache (computeKey rep name args kwargs) (SVal.res r))
        (computeKey rep name args kwargs ++ atimeSuffix) (SVal.time now) from rfl]
  rw [sget_sset_ne _ _ _ _ (key_ne_atimeKey _)]
  exact sget_sset_self _ _ _

/-! ## Claim theorems -/

/-- C1: if the computed `CacheKey` already has a stored entry, the wrapped
call returns that stored object, invokes the callable zero times and only
refreshes the timestamp; and after a miss stores a result for the key, a
subsequent call with the same arguments (under any callable and any later
clock) returns the previously stored result with zero further invocations. -/
theorem cache_hit_no_invocation {α ε : Type} (rep : α → Key) (name : Key)
    (fn : List α → List (Key × α) → Except ε α) (now : ℚ) (args : List α)
    (kwargs : List (Key × α)) (cache : Store α) :
    (∀ sv : SVal α, sget cache (computeKey rep name args kwargs) = some sv →
        wrapper rep name fn now args kwargs cache =
          (Except.ok sv,
           sset cache (computeKey rep name args kwargs ++ atimeSuffix)
             (SVal.time now), 0)) ∧
    (∀ r : α, sget cache (computeKey rep name args kwargs) = none →
        fn args kwargs = Except.ok r →
        ∀ {ε' : Type} (fn' : List α → List (Key × α) → Except ε' α) (now' : ℚ),
          wrapper rep name fn' now' args kwargs
              (wrapper rep name fn now args kwargs cache).2.1 =
            (Except.ok (SVal.res r),
             sset (wrapper rep name fn now args kwargs cache).2.1
               (computeKey rep name args kwargs ++ atimeSuffix)
               (SVal.time now'), 0)) := by
  constructor
  · intro sv h
    exact wrapper_hit rep name fn now args kwargs cache h
  · intro r hm hf ε' fn' now'
    exact wrapper_hit rep name fn' now' args kwargs _
      (sget_after_miss rep name fn now args kwargs cache hm hf)

/-- Witness for C1 at a concrete instantiation: a store holding the computed
key returns the stored value without invoking the callable. -/
theorem cache_hit_no_invocation_witness :
    wrapper (fun _ : Unit => ['u']) ['f']
        (fun _ _ => (Except.ok () : Except Unit Unit)) 5 [] []
        (sset [] (computeKey (fun _ : Unit => ['u']) ['f'] [] []) (SVal.res ())) =
      (Except.ok (SVal.res ()),
       sset (sset [] (computeKey (fun _ : Unit => ['u']) ['f'] [] []) (SVal.res ()))
         (computeKey (fun _ : Unit => ['u']) ['f'] [] [] ++ atimeSuffix)
         (SVal.time 5), 0) :=
  (cache_hit_no_invocation (fun _ : Unit => ['u']) ['f']
      (fun _ _ => Except.ok ()) 5 [] []
      (sset [] (computeKey (fun _ : Unit => ['u']) ['f'] [] []) (SVal.res ()))).1
    (SVal.res ()) (sget_sset_self _ _ _)

/-- C2: a cache miss whose callable raises propagates the exception and
leaves the store exactly as it was: no value entry and no timestamp entry
is written. -/
theorem failing_miss_atomic {α ε : Type} (rep : α → Key) (name : Key)
    (fn : List α → List (Key × α) → Except ε α) (now : ℚ) (args : List α)
    (kwargs : List (Key × α)) (cache : Store α) (e : ε)
    (hmiss : sget cache (computeKey rep name args kwargs) = none)
    (herr : fn args kwargs = Except.error e) :
    wrapper rep name fn now args kwargs cache = (Except.error e, cache, 1) :=
  wrapper_miss_err rep name fn now args kwargs cache hmiss herr

/-- Witness for C2: a raising callable on the empty store leaves it empty. -/
theorem failing_miss_atomic_witness :
    wrapper (fun _ : Unit => ['u']) ['f']
        (fun _ _ => (Except.error 7 : Except Nat Unit)) 5 [] [] [] =
      (Except.error 7, [], 1) :=
  failing_miss_atomic (fun _ : Unit => ['u']) ['f']
    (fun _ _ => Except.error 7) 5 [] [] [] 7 rfl rfl

/-- C4: for a fixed callable name, representation function and positional
arguments, the `CacheKey` is a function of the keyword-argument set alone:
supplying the keyword arguments (with their pairwise-distinct names) in any
insertion order yields the identical hexadecimal digest. -/
theorem computeKey_kworder_insensitive {α : Type} (rep : α → Key) (name : Key)
    (args : List α) {kw₁ kw₂ : List (Key × α)} (hperm : kw₁.Perm kw₂)
    (hnd : (kw₁.map Prod.fst).Nodup) :
    computeKey rep name args kw₁ = computeKey rep name args kw₂ := by
  unfold computeKey keyBytes
  rw [sortKwargs_eq_of_perm hperm hnd]

/-- Witness for C4: swapping two concrete keyword arguments leaves the
digest unchanged. -/
theorem computeKey_kworder_insensitive_witness :
    computeKey (fun n : Nat => [Char.ofNat (48 + n)]) ['f'] []
        [(['b'], 0), (['a'], 1)] =
      computeKey (fun n : Nat => [Char.ofNat (48 + n)]) ['f'] []
        [(['a'], 1), (['b'], 0)] :=
  computeKey_kworder_insensitive (fun n : Nat => [Char.ofNat (48 + n)]) ['f'] []
    (List.Perm.swap (['a'], 1) (['b'], 0) []) (by decide)

/-- C7: every successful wrapped call, hit or miss, writes the timestamp of
the computed key to the current time as its final store mutation, so the
timestamp after the call is at least the timestamp before the call (given
that the clock did not run backwards). -/
theorem timestamp_refresh {α ε : Type} (rep : α → Key) (name : Key)
    (fn : List α → List (Key × α) → Except ε α) (now : ℚ) (args : List α)
    (kwargs : List (Key × α)) (cache : Store α) (outcome : SVal α)
    (store : Store α) (n : Nat)
    (hcall : wrapper rep name fn now args kwargs cache =
      (Except.ok outcome, store, n)) :
    (∃ c₁, store =
        sset c₁ (computeKey rep name args kwargs ++ atimeSuffix) (SVal.time now)) ∧
    sget store (computeKey rep name args kwargs ++ atimeSuffix) =
      some (SVal.time now) ∧
    (∀ t₀, sget cache (computeKey rep name args kwargs ++ atimeSuffix) =
        some (SVal.time t₀) → t₀ ≤ now →
      ∃ t₁, sget store (computeKey rep name args kwargs ++ atimeSuffix) =
          some (SVal.time t₁) ∧ t₀ ≤ t₁) := by
  rcases hget : sget cache (computeKey rep name args kwargs) with _ | sv
  · rcases hfn : fn args kwargs with e | r
    · rw [wrapper_miss_err rep name fn now args kwargs cache hget hfn] at hcall
      simp at hcall
    · rw [wrapper_miss_ok rep name fn now args kwargs cache hget hfn] at hcall
      have hstore : store =
          sset (sset cache (computeKey rep name args kwargs) (SVal.res r))
            (computeKey rep name args kwargs ++ atimeSuffix) (SVal.time now) := by
        have := congrArg (fun x : Except ε (SVal α) × Store α × Nat => x.2.1) hcall
        simpa using this.symm
      refine ⟨⟨_, hstore⟩, ?_, ?_⟩
      · rw [hstore]; exact sget_sset_self _ _ _
      · intro t₀ _ hle
        exact ⟨now, by rw [hstore]; exact sget_sset_self _ _ _, hle⟩
  · rw [wrapper_hit rep name fn now args kwargs cache hget] at hcall
    have hstore : store =
        sset cache (computeKey rep name args kwargs ++ atimeSuffix)
          (SVal.time now) := by
      have := congrArg (fun x : Except ε (SVal α) × Store α × Nat => x.2.1) hcall
      simpa using this.symm
    refine ⟨⟨_, hstore⟩, ?_, ?_⟩
    · rw [hstore]; exact sget_sset_self _ _ _
    · intro t₀ _ hle
      exact ⟨now, by rw [hstore]; exact sget_sset_self _ _ _, hle⟩

/-- Witness for C7: a concrete miss on the empty store leaves the computed
key's timestamp at the call's clock reading. -/
theorem timestamp_refresh_witness :
    sget (sset (sset [] (computeKey (fun _ : Unit => ['u']) ['f'] [] []) (SVal.res ()))
        (computeKey (fun _ : Unit => ['u']) ['f'] [] [] ++ atimeSuffix) (SVal.time 5))
      (computeKey (fun _ : Unit => ['u']) ['f'] [] [] ++ atimeSuffix) =
      some (SVal.time 5) :=
  (timestamp_refresh (fun _ : Unit => ['u']) ['f']
      (fun _ _ => (Except.ok () : Except Unit Unit)) 5 [] [] []
      (SVal.res ())
      (sset (sset [] (computeKey (fun _ : Unit => ['u']) ['f'] [] []) (SVal.res ()))
        (computeKey (fun _ : Unit => ['u']) ['f'] [] [] ++ atimeSuffix) (SVal.time 5))
      1
      (wrapper_miss_ok (fun _ : Unit => ['u']) ['f']
        (fun _ _ => (Except.ok () : Except Unit Unit)) 5 [] [] [] rfl rfl)).2.1

/-- C9: the `CacheKey` depends on the callable only through its name, so a
call through any callable `g` whose name and argument representations match
an earlier (missed and stored) call through `f` computes the same key and
returns `f`'s stored result with zero invocations of `g`. -/
theorem callable_name_aliasing {α ε ε' : Type} (rep : α → Key) (name : Key)
    (f : List α → List (Key × α) → Except ε α)
    (g : List α → List (Key × α) → Except ε' α)
    (now now' : ℚ) (args args₂ : List α) (kwargs : List (Key × α))
    (cache : Store α) (r : α)
    (hmiss : sget cache (computeKey rep name args kwargs) = none)
    (hok : f args kwargs = Except.ok r)
    (hargs : args₂.map rep = args.map rep) :
    computeKey rep name args₂ kwargs = computeKey rep name args kwargs ∧
    wrapper rep name g now' args₂ kwargs
        (wrapper rep name f now args kwargs cache).2.1 =
      (Except.ok (SVal.res r),
       sset (wrapper rep name f now args kwargs cache).2.1
         (computeKey rep name args kwargs ++ atimeSuffix) (SVal.time now'), 0) := by
  have hkey : computeKey rep name args₂ kwargs = computeKey rep name args kwargs := by
    unfold computeKey keyBytes
    rw [← List.flatMap_map rep strBytes args₂, ← List.flatMap_map rep strBytes args,
      hargs]
  refine ⟨hkey, ?_⟩
  have hst := sget_after_miss rep name f now args kwargs cache hmiss hok
  have hst₂ : sget (wrapper rep name f now args kwargs cache).2.1
      (computeKey rep name args₂ kwargs) = some (SVal.res r) := by
    rw [hkey]; exact hst
  have hw := wrapper_hit rep name g now' args₂ kwargs
    (wrapper rep name f now args kwargs cache).2.1 hst₂
  rw [hw, hkey]

/-- Witness for C9: a second callable of the same name that would raise is
never invoked and the first callable's stored result is returned. -/
theorem callable_name_aliasing_witness :
    wrapper (fun b : Bool => [cond b 't' 'f']) ['f']
        (fun _ _ => (Except.error 3 : Except Nat Bool)) 7 [] []
        (wrapper (fun b : Bool => [cond b 't' 'f']) ['f']
          (fun _ _ => (Except.ok true : Except Unit Bool)) 5 [] [] []).2.1 =
      (Except.ok (SVal.res true),
       sset (wrapper (fun b : Bool => [cond b 't' 'f']) ['f']
           (fun _ _ => (Except.ok true : Except Unit Bool)) 5 [] [] []).2.1
         (computeKey (fun b : Bool => [cond b 't' 'f']) ['f'] [] [] ++ atimeSuffix)
         (SVal.time 7), 0) :=
  (callable_name_aliasing (fun b : Bool => [cond b 't' 'f']) ['f']
      (fun _ _ => Except.ok true) (fun _ _ => Except.error 3) 5 7 [] [] [] [] true
      rfl rfl rfl).2

/-- C10: every value key produced by key derivation is a 40-character
hexadecimal digest, hence never ends with `":atime"`; appending `":atime"`
does end with the suffix, and splitting it off recovers the value key, so
the suffix test classifies exactly the timestamp entries. -/
theorem valueKey_digest_never_atime {α : Type} (rep : α → Key) (name : Key)
    (args : List α) (kwargs : List (Key × α)) :
    isDigestKey (computeKey rep name args kwargs) = true ∧
    pyEndsWith (computeKey rep name args kwargs) atimeSuffix = false ∧
    pyEndsWith (computeKey rep name args kwargs ++ atimeSuffix) atimeSuffix = true ∧
    rsplitBefore ':' (computeKey rep name args kwargs ++ atimeSuffix) =
      computeKey rep name args kwargs :=
  ⟨isDigestKey_computeKey rep name args kwargs,
   digest_not_atime (isDigestKey_computeKey rep name args kwargs),
   atimeKey_ends_atime _, rsplit_atimeKey _⟩

/-- C6: `clear` with a threshold that is absent (the default `0`) or
negative empties the whole store, after which the statistics count is zero;
and `clear` on an already empty cache returns the empty store for every
threshold. -/
theorem full_clear_empties {α : Type} (now maxage now' : ℚ) (c : Store α)
    (h : maxage ≤ 0) :
    clear now maxage c = [] ∧ (_stats now' (clear now maxage c)).1 = 0 ∧
    (∀ now₂ maxage₂ : ℚ, clear now₂ maxage₂ ([] : Store α) = []) := by
  have hne : ¬ (0 < maxage) := not_lt.mpr h
  refine ⟨by simp [clear, hne], by simp [clear, hne, _stats, skeys], ?_⟩
  intro now₂ maxage₂
  by_cases h2 : 0 < maxage₂ <;> simp [clear, h2, outdatedKeys, skeys]

/-- Witness for C6: a one-entry store is emptied by `clear` with the
default threshold. -/
theorem full_clear_empties_witness :
    clear 10 0 [(List.replicate 40 'a', SVal.res (0 : Nat))] = [] :=
  (full_clear_empties 10 0 3 [(List.replicate 40 'a', SVal.res (0 : Nat))]
    le_rfl).1

/-! ## Helper computations for the command-line output -/

theorem sub_zero_two_hundred : (200 : ℚ) - 0 = 200 := by norm_num

theorem sub_hundred_two_hundred : (200 : ℚ) - 100 = 100 := by norm_num

theorem age_two_hundred : age (200 : ℚ) = ['3', 'm'] := by
  have h60 : (200 : ℚ) / 60 = Rat.divInt 10 3 := by
    rw [Rat.divInt_eq_div]; norm_num
  have h3600 : (200 : ℚ) / 3600 = Rat.divInt 1 18 := by
    rw [Rat.divInt_eq_div]; norm_num
  have h86400 : (200 : ℚ) / 86400 = Rat.divInt 1 432 := by
    rw [Rat.divInt_eq_div]; norm_num
  simp only [age, h60, h3600, h86400]
  decide

theorem age_hundred : age (100 : ℚ) = ['1', '0', '0', 's'] := by
  have h60 : (100 : ℚ) / 60 = Rat.divInt 5 3 := by
    rw [Rat.divInt_eq_div]; norm_num
  have h3600 : (100 : ℚ) / 3600 = Rat.divInt 1 36 := by
    rw [Rat.divInt_eq_div]; norm_num
  have h86400 : (100 : ℚ) / 86400 = Rat.divInt 1 864 := by
    rw [Rat.divInt_eq_div]; norm_num
  simp only [age, h60, h3600, h86400]
  decide

theorem stats_demoStore : _stats 200 demoStore = (2, 0, 100) := by decide

/-- C8 (code bug at line 123): on a cache whose two timestamps are 0 and
100, read at time 200, the "Latest" line printed by the command repeats the
oldest-based age `3m` instead of the newest-based age `100s` required by
the specification: line 123 formats `age(now - oldest)` again. -/
theorem cli_latest_line_uses_oldest :
    _stats 200 demoStore = (2, 0, 100) ∧
    (mainOutput 200 200 demoStore).getD 1 [] =
      "Oldest result usage age  : ".data ++ ['3', 'm'] ∧
    (mainOutput 200 200 demoStore).getD 2 [] =
      "Latest result usage age  : ".data ++ ['3', 'm'] ∧
    age (200 - (_stats 200 demoStore).2.2) = ['1', '0', '0', 's'] ∧
    (mainOutput 200 200 demoStore).getD 2 [] ≠
      "Latest result usage age  : ".data ++
        age (200 - (_stats 200 demoStore).2.2) := by
  have hout : mainOutput 200 200 demoStore =
      ["Number of cached results : ".data ++ ['2'],
       "Oldest result usage age  : ".data ++ ['3', 'm'],
       "Latest result usage age  : ".data ++ ['3', 'm']] := by
    simp only [mainOutput, stats_demoStore]
    rw [sub_zero_two_hundred, age_two_hundred]
    decide
  have hnewest : age (200 - (_stats 200 demoStore).2.2) = ['1', '0', '0', 's'] := by
    rw [show (_stats 200 demoStore).2.2 = 100 by rw [stats_demoStore],
      sub_hundred_two_hundred, age_hundred]
  refine ⟨stats_demoStore, by rw [hout]; decide, by rw [hout]; decide, hnewest, ?_⟩
  rw [hout, hnewest]
  decide

/-! ## Eviction analysis -/

theorem mem_outdatedKeys {α : Type} {b : ℚ} {c : Store α} {x : Key} :
    x ∈ outdatedKeys b c ↔
      ∃ key ∈ skeys c,
        (pyEndsWith key atimeSuffix = true ∧ atimeLt (sget c key) b = true) ∧
        (x = key ∨ x = rsplitBefore ':' key) := by
  unfold outdatedKeys
  rw [List.mem_flatMap]
  constructor
  · rintro ⟨key, hk, hx⟩
    by_cases hcond : pyEndsWith key atimeSuffix = true ∧ atimeLt (sget c key) b = true
    · rw [if_pos hcond] at hx
      simp at hx
      exact ⟨key, hk, hcond, hx⟩
    · rw [if_neg hcond] at hx
      simp at hx
  · rintro ⟨key, hk, hcond, hx⟩
    refine ⟨key, hk, ?_⟩
    rw [if_pos hcond]
    rcases hx with h | h <;> simp [h]

theorem clear_pos_eq_filter {α : Type} {now maxage : ℚ} (h : 0 < maxage)
    (c : Store α) :
    clear now maxage c =
      c.filter (fun p => decide (p.1 ∉ outdatedKeys (now - maxage) c)) := by
  rw [clear, if_pos h, foldl_sdel_eq_filter]

theorem sget_clear_pos {α : Type} {now maxage : ℚ} (h : 0 < maxage)
    (c : Store α) (k : Key) :
    sget (clear now maxage c) k =
      if k ∈ outdatedKeys (now - maxage) c then none else sget c k := by
  rw [clear, if_pos h, sget_foldl_sdel]

theorem skeys_shape {α : Type} {c : Store α} (hshape : wfShape c) {key : Key}
    (hk : key ∈ skeys c) :
    (isDigestKey key = true ∧ pyEndsWith key atimeSuffix = false) ∨
    ∃ d, isDigestKey d = true ∧ key = d ++ atimeSuffix := by
  rcases List.mem_map.mp hk with ⟨p, hp, rfl⟩
  rcases hshape p hp with ⟨hd, _⟩ | ⟨d, hd, heq, _⟩
  · exact Or.inl ⟨hd, digest_not_atime hd⟩
  · exact Or.inr ⟨d, hd, heq⟩

theorem digest_mem_outdated {α : Type} {b : ℚ} {c : Store α}
    (hshape : wfShape c) {x : Key} (hx : isDigestKey x = true) :
    x ∈ outdatedKeys b c ↔
      (x ++ atimeSuffix) ∈ skeys c ∧
        atimeLt (sget c (x ++ atimeSuffix)) b = true := by
  rw [mem_outdatedKeys]
  constructor
  · rintro ⟨key, hk, ⟨hend, hlt⟩, hcase⟩
    rcases skeys_shape hshape hk with ⟨_, hna⟩ | ⟨d, _, rfl⟩
    · rw [hend] at hna; simp at hna
    · rcases hcase with rfl | heq
      · have := digest_not_atime hx
        rw [atimeKey_ends_atime] at this
        simp at this
      · rw [rsplit_atimeKey] at heq
        subst heq
        exact ⟨hk, hlt⟩
  · rintro ⟨hmem, hlt⟩
    exact ⟨x ++ atimeSuffix, hmem, ⟨atimeKey_ends_atime x, hlt⟩,
      Or.inr (rsplit_atimeKey x).symm⟩

theorem atimeKey_mem_outdated {α : Type} {b : ℚ} {c : Store α}
    (hshape : wfShape c) {x : Key} (_hx : isDigestKey x = true) :
    (x ++ atimeSuffix) ∈ outdatedKeys b c ↔
      (x ++ atimeSuffix) ∈ skeys c ∧
        atimeLt (sget c (x ++ atimeSuffix)) b = true := by
  rw [mem_outdatedKeys]
  constructor
  · rintro ⟨key, hk, ⟨hend, hlt⟩, hcase⟩
    rcases skeys_shape hshape hk with ⟨_, hna⟩ | ⟨d, hd, rfl⟩
    · rw [hend] at hna; simp at hna
    · rcases hcase with heq | heq
      · have : x = d := atimeKey_inj heq
        subst this
        exact ⟨hk, hlt⟩
      · rw [rsplit_atimeKey] at heq
        exact absurd heq.symm (digest_ne_atimeKey hd x)
  · rintro ⟨hmem, hlt⟩
    exact ⟨x ++ atimeSuffix, hmem, ⟨atimeKey_ends_atime x, hlt⟩, Or.inl rfl⟩

theorem mem_skeys_clear_filter {α : Type} (ks : List Key) (c : Store α) (k : Key) :
    k ∈ skeys (c.filter (fun p => decide (p.1 ∉ ks))) ↔ k ∈ skeys c ∧ k ∉ ks := by
  unfold skeys
  constructor
  · intro h
    rcases List.mem_map.mp h with ⟨p, hp, rfl⟩
    rcases List.mem_filter.mp hp with ⟨hpc, hf⟩
    simp only [decide_eq_true_eq] at hf
    exact ⟨List.mem_map_of_mem _ hpc, hf⟩
  · rintro ⟨h, hf⟩
    rcases List.mem_map.mp h with ⟨p, hp, rfl⟩
    exact List.mem_map_of_mem _
      (List.mem_filter.mpr ⟨hp, by simpa using hf⟩)

/-! ## Preservation of well-formedness -/

theorem wf_empty {α : Type} : wfStore ([] : Store α) :=
  ⟨List.nodup_nil, fun p hp => absurd hp (List.not_mem_nil p),
   fun _ _ => by simp [scontains, sget]⟩

theorem wf_sset_atime {α : Type} {c : Store α} (hwf : wfStore c) {d : Key}
    (hd : isDigestKey d = true) (hcont : scontains c d = true) (t : ℚ) :
    wfStore (sset c (d ++ atimeSuffix) (SVal.time t)) := by
  obtain ⟨hnd, hshape, hpair⟩ := hwf
  refine ⟨nodup_skeys_sset _ _ hnd, ?_, ?_⟩
  · intro p hp
    rcases mem_sset hp with rfl | hp'
    · exact Or.inr ⟨d, hd, rfl, t, rfl⟩
    · exact hshape p hp'
  · intro d' hd'
    simp only [scontains_sset]
    by_cases hdd : d' = d
    · subst hdd
      exact ⟨fun _ => Or.inl rfl, fun _ => Or.inr hcont⟩
    · have h1 : ¬ d' = d ++ atimeSuffix := digest_ne_atimeKey hd' d
      have h2 : ¬ d' ++ atimeSuffix = d ++ atimeSuffix :=
        fun h => hdd (atimeKey_inj h)
      rw [or_iff_right h1, or_iff_right h2]
      exact hpair d' hd'

theorem wf_sset_pair {α : Type} {c : Store α} (hwf : wfStore c) {d : Key}
    (hd : isDigestKey d = true) (v : α) (t : ℚ) :
    wfStore (sset (sset c d (SVal.res v)) (d ++ atimeSuffix) (SVal.time t)) := by
  obtain ⟨hnd, hshape, hpair⟩ := hwf
  have hnd1 := nodup_skeys_sset d (SVal.res v) hnd
  refine ⟨nodup_skeys_sset _ _ hnd1, ?_, ?_⟩
  · intro p hp
    rcases mem_sset hp with rfl | hp'
    · exact Or.inr ⟨d, hd, rfl, t, rfl⟩
    · rcases mem_sset hp' with rfl | hp''
      · exact Or.inl ⟨hd, v, rfl⟩
      · exact hshape p hp''
  · intro d' hd'
    simp only [scontains_sset]
    by_cases hdd : d' = d
    · subst hdd
      exact ⟨fun _ => Or.inl rfl, fun _ => Or.inr (Or.inl rfl)⟩
    · have h1 : ¬ d' = d ++ atimeSuffix := digest_ne_atimeKey hd' d
      have h2 : ¬ d' ++ atimeSuffix = d ++ atimeSuffix :=
        fun h => hdd (atimeKey_inj h)
      have h3 : ¬ d' ++ atimeSuffix = d := atimeKey_ne_digest hd
      rw [or_iff_right h1, or_iff_right hdd, or_iff_right h2, or_iff_right h3]
      exact hpair d' hd'

theorem wf_wrapper {α ε : Type} (rep : α → Key) (name : Key)
    (fn : List α → List (Key × α) → Except ε α) (now : ℚ) (args : List α)
    (kwargs : List (Key × α)) {c : Store α} (hwf : wfStore c) :
    wfStore (wrapper rep name fn now args kwargs c).2.1 := by
  rcases hget : sget c (computeKey rep name args kwargs) with _ | sv
  · rcases hfn : fn args kwargs with e | r
    · rw [wrapper_miss_err rep name fn now args kwargs c hget hfn]
      exact hwf
    · rw [wrapper_miss_ok rep name fn now args kwargs c hget hfn]
      exact wf_sset_pair hwf (isDigestKey_computeKey rep name args kwargs) r now
  · rw [wrapper_hit rep name fn now args kwargs c hget]
    exact wf_sset_atime hwf (isDigestKey_computeKey rep name args kwargs)
      (scontains_of_sget hget) now

theorem wf_clear {α : Type} (now maxage : ℚ) {c : Store α} (hwf : wfStore c) :
    wfStore (clear now maxage c) := by
  by_cases h : 0 < maxage
  · rw [clear_pos_eq_filter h]
    obtain ⟨hnd, hshape, hpair⟩ := hwf
    refine ⟨?_, ?_, ?_⟩
    · exact hnd.sublist ((List.filter_sublist c).map Prod.fst)
    · intro p hp
      exact hshape p (List.mem_filter.mp hp).1
    · intro d hd
      have hpair' := hpair d hd
      rw [scontains_iff_mem, scontains_iff_mem] at hpair'
      rw [scontains_iff_mem, scontains_iff_mem, mem_skeys_clear_filter,
        mem_skeys_clear_filter, digest_mem_outdated hshape hd,
        atimeKey_mem_outdated hshape hd]
      exact and_congr hpair' Iff.rfl
  · rw [clear, if_neg h]
    exact wf_empty

theorem reachable_wf {α : Type} {c : Store α} (h : Reachable c) : wfStore c := by
  induction h with
  | empty => exact wf_empty
  | call rep name fn now args kwargs _ ih =>
      exact wf_wrapper rep name fn now args kwargs ih
  | evict now maxage _ ih => exact wf_clear now maxage ih

/-- C3: in every store reachable from the empty cache via the public
operations, a value entry never exists without its timestamp entry and a
timestamp entry never exists without its value entry. -/
theorem pairing_invariant {α : Type} {c : Store α} (h : Reachable c) :
    (∀ p ∈ c, pyEndsWith p.1 atimeSuffix = false →
        scontains c (p.1 ++ atimeSuffix) = true) ∧
    (∀ p ∈ c, pyEndsWith p.1 atimeSuffix = true →
        scontains c (rsplitBefore ':' p.1) = true) := by
  obtain ⟨hnd, hshape, hpair⟩ := reachable_wf h
  constructor
  · intro p hp hend
    rcases hshape p hp with ⟨hd, _⟩ | ⟨d, _, heq, _⟩
    · exact (hpair p.1 hd).mp (scontains_iff_mem.mpr (List.mem_map_of_mem _ hp))
    · rw [heq, atimeKey_ends_atime] at hend
      simp at hend
  · intro p hp hend
    rcases hshape p hp with ⟨hd, _⟩ | ⟨d, hd, heq, _⟩
    · rw [digest_not_atime hd] at hend
      simp at hend
    · rw [heq, rsplit_atimeKey]
      refine (hpair d hd).mpr (scontains_iff_mem.mpr ?_)
      rw [← heq]
      exact List.mem_map_of_mem _ hp

/-- Witness for C3 at a concrete reachable store: the store after one
wrapped call on the empty cache. -/
theorem pairing_invariant_witness :
    (∀ p ∈ (wrapper (fun _ : Unit => ['u']) ['f']
        (fun _ _ => (Except.ok () : Except Unit Unit)) 5 [] [] []).2.1,
      pyEndsWith p.1 atimeSuffix = false →
        scontains (wrapper (fun _ : Unit => ['u']) ['f']
          (fun _ _ => (Except.ok () : Except Unit Unit)) 5 [] [] []).2.1
          (p.1 ++ atimeSuffix) = true) ∧
    (∀ p ∈ (wrapper (fun _ : Unit => ['u']) ['f']
        (fun _ _ => (Except.ok () : Except Unit Unit)) 5 [] [] []).2.1,
      pyEndsWith p.1 atimeSuffix = true →
        scontains (wrapper (fun _ : Unit => ['u']) ['f']
          (fun _ _ => (Except.ok () : Except Unit Unit)) 5 [] [] []).2.1
          (rsplitBefore ':' p.1) = true) :=
  pairing_invariant
    (Reachable.call (fun _ : Unit => ['u']) ['f']
      (fun _ _ => (Except.ok () : Except Unit Unit)) 5 [] [] Reachable.empty)

/-- C5: with a positive `maxage`, `clear` removes exactly the key pairs
whose timestamp is strictly older than `now - maxage`: such pairs lose both
entries, pairs at or after the cutoff keep both entries unchanged (and so
remain retrievable as hits), and no key outside the store's entries appears. -/
theorem eviction_exact {α : Type} (now maxage : ℚ) {c : Store α}
    (hshape : wfShape c) (hpos : 0 < maxage) {d : Key}
    (hd : isDigestKey d = true) {t : ℚ}
    (ht : sget c (d ++ atimeSuffix) = some (SVal.time t)) :
    (t < now - maxage →
      scontains (clear now maxage c) d = false ∧
      scontains (clear now maxage c) (d ++ atimeSuffix) = false) ∧
    (¬ t < now - maxage →
      sget (clear now maxage c) d = sget c d ∧
      sget (clear now maxage c) (d ++ atimeSuffix) = sget c (d ++ atimeSuffix)) ∧
    (∀ k, scontains (clear now maxage c) k = true → scontains c k = true) := by
  have hmem : (d ++ atimeSuffix) ∈ skeys c :=
    scontains_iff_mem.mp (scontains_of_sget ht)
  have hlt_eq : atimeLt (sget c (d ++ atimeSuffix)) (now - maxage) =
      decide (t < now - maxage) := by
    rw [ht]
    rfl
  refine ⟨?_, ?_, ?_⟩
  · intro hold
    have hcond : (d ++ atimeSuffix) ∈ skeys c ∧
        atimeLt (sget c (d ++ atimeSuffix)) (now - maxage) = true :=
      ⟨hmem, by rw [hlt_eq]; exact decide_eq_true hold⟩
    constructor
    · simp only [scontains, sget_clear_pos hpos,
        if_pos ((digest_mem_outdated hshape hd).mpr hcond)]
      rfl
    · simp only [scontains, sget_clear_pos hpos,
        if_pos ((atimeKey_mem_outdated hshape hd).mpr hcond)]
      rfl
  · intro hnot
    have hncond : ¬ ((d ++ atimeSuffix) ∈ skeys c ∧
        atimeLt (sget c (d ++ atimeSuffix)) (now - maxage) = true) := by
      rintro ⟨_, hc⟩
      rw [hlt_eq] at hc
      exact hnot (of_decide_eq_true hc)
    constructor
    · rw [sget_clear_pos hpos,
        if_neg (fun hmem' => hncond ((digest_mem_outdated hshape hd).mp hmem'))]
    · rw [sget_clear_pos hpos,
        if_neg (fun hmem' => hncond ((atimeKey_mem_outdated hshape hd).mp hmem'))]
  · intro k hk
    simp only [scontains, sget_clear_pos hpos] at hk ⊢
    by_cases hmem' : k ∈ outdatedKeys (now - maxage) c
    · rw [if_pos hmem'] at hk
      simp at hk
    · rw [if_neg hmem'] at hk
      exact hk

/-- The demonstration store is well-shaped. -/
theorem wfShape_demoStore : wfShape demoStore := by
  intro p hp
  simp only [demoStore, List.mem_cons, List.not_mem_nil, or_false] at hp
  rcases hp with rfl | rfl | rfl | rfl
  · exact Or.inl ⟨by decide, (), rfl⟩
  · exact Or.inr ⟨List.replicate 40 'a', by decide, rfl, 0, rfl⟩
  · exact Or.inl ⟨by decide, (), rfl⟩
  · exact Or.inr ⟨List.replicate 40 'b', by decide, rfl, 100, rfl⟩

/-- Witness for C5: clearing with `maxage = 50` at time 200 evicts both
entries of the pair whose timestamp 100 is older than the cutoff 150. -/
theorem eviction_exact_witness :
    scontains (clear 200 50 demoStore) (List.replicate 40 'b') = false ∧
    scontains (clear 200 50 demoStore)
      (List.replicate 40 'b' ++ atimeSuffix) = false :=
  (eviction_exact 200 50 wfShape_demoStore (by norm_num) (by decide)
      (show sget demoStore (List.replicate 40 'b' ++ atimeSuffix) =
        some (SVal.time 100) by decide)).1 (by norm_num)
